import Mathlib

/-
Verification of the weak-reference counter subsystem
(runtime/src/main/cpp/Weak.cpp).

The development contains two embeddings of the same C code:

* a sequential model, in which each exported operation
  (Konan_WeakReferenceCounter_get, WeakReferenceCounterClear,
  Konan_getWeakReferenceImpl) is a function on explicit counter /
  metadata states; the spin lock is modelled as a partial operation
  (Option), none meaning the call does not complete normally
  (spins forever, or the unlock RuntimeAssert fires);

* an interleaved model, in which each line of the critical sections is
  one atomic step of a thread program, and an arbitrary finite set of
  threads is scheduled nondeterministically; reachability is the
  reflexive-transitive closure of the one-thread-steps relation.

Heap pointers are modelled as Nat; a nullable ObjHeader* is Option Nat.
-/

namespace Weak

/-- A heap pointer (`ObjHeader*`); null pointers are modelled by
wrapping in Option. -/
abbrev ObjPtr := Nat

/-! ## Sequential model of the counter object

A weak-reference counter object carries two trailing fields at fixed
offsets (`referredOffset = 0`, `lockOffset = sizeof(void*)`): the
referred object pointer and the 32-bit spin-lock word. -/

/-- The mutable state of a weak-reference counter object: the trailing
`referred` slot (at `referredOffset`) and the spin-lock word (at
`lockOffset`). -/
structure Counter where
  referred : Option ObjPtr
  lock : Nat
deriving DecidableEq, Repr

/-- One `__sync_val_compare_and_swap(address, expected, new)` on a cell
currently holding `cur`: returns the value read (the value the CAS
returns) and the value stored afterwards. -/
def casVal (cur expected new : Nat) : Nat × Nat :=
  if cur = expected then (cur, new) else (cur, cur)

/-- `lock(address)`: spin `while (__sync_val_compare_and_swap(address, 0, 1) == 1);`.
Run sequentially on a flag holding `flag`, the loop either terminates
(returning the flag value stored when it exits) or spins forever
(`none`): with `flag = 0` the CAS acquires and stores 1; with
`flag = 1` the CAS keeps returning 1, so a single thread spins forever;
with any other value the CAS fails but returns a value different from
1, so the loop exits without changing the flag. -/
def lock (flag : Nat) : Option Nat :=
  if flag = 1 then none
  else if flag = 0 then some 1 else some flag

/-- `unlock(address)`: one `__sync_val_compare_and_swap(address, 1, 0)`
followed by `RuntimeAssert(old == 1, "Incorrect lock state")`. Returns
the stored flag value on success; `none` when the assertion fires
(the call does not return normally). -/
def unlock (flag : Nat) : Option Nat :=
  if flag = 1 then some 0 else none

/-- `Konan_WeakReferenceCounter_get` in the threaded build
(`!KONAN_NO_THREADS`): lock the counter's spin word, copy
`*referredAddress` into a rooted `ObjHolder`, unlock, return the copy.
The result pairs the returned object with the counter state after the
call; `none` means the call does not complete (spin forever /
assertion). -/
def Konan_WeakReferenceCounter_get (c : Counter) : Option (Option ObjPtr × Counter) := do
  let l1 ← lock c.lock
  let holder := c.referred
  let l2 ← unlock l1
  return (holder, { referred := c.referred, lock := l2 })

/-- `Konan_WeakReferenceCounter_get` in the `KONAN_NO_THREADS` build:
`RETURN_OBJ(*referredAddress)` — a plain field read, no state change. -/
def Konan_WeakReferenceCounter_get_noThreads (c : Counter) : Option ObjPtr × Counter :=
  (c.referred, c)

/-- `WeakReferenceCounterClear` in the threaded build: lock the
counter's spin word, store null into the referred slot with a plain
store, unlock. `none` means the call does not complete normally. -/
def WeakReferenceCounterClear (c : Counter) : Option Counter := do
  let l1 ← lock c.lock
  let l2 ← unlock l1
  return { referred := none, lock := l2 }

/-- `WeakReferenceCounterClear` in the `KONAN_NO_THREADS` build:
`*referredAddress = nullptr` — a plain store. -/
def WeakReferenceCounterClear_noThreads (c : Counter) : Counter :=
  { c with referred := none }

/-! ## Reference-count instrumentation for the clear path

`Weak.cpp` stores null into the referred slot with a plain assignment
and the comment "Note, that we don't do UpdateRef here, as reference is
weak." To state that the clear path performs no ownership operation we
instrument writes with the list of reference-count operations they
emit. -/

/-- A reference-count operation on a heap object. -/
inductive RefCountOp
  | retainOp (obj : ObjPtr)
  | releaseOp (obj : ObjPtr)
deriving DecidableEq, Repr

/-- A plain pointer store (`*referredAddress = nullptr`): overwrites the
location and emits no reference-count operation. -/
def plainStore (newVal : Option ObjPtr) : Option ObjPtr × List RefCountOp :=
  (newVal, [])

/-- Modelled from the spec: `UpdateRef`, the reference-updating
primitive declared in Memory.h (its body is not part of this fragment),
is the write the clear path deliberately bypasses; writing a reference
through it participates in the ownership model — it retains the newly
stored object and releases (decrements) the previously stored one. -/
def UpdateRef (location : Option ObjPtr) (newVal : Option ObjPtr) :
    Option ObjPtr × List RefCountOp :=
  (newVal,
    (match newVal with
     | some n => [RefCountOp.retainOp n]
     | none => []) ++
    (match location with
     | some o => [RefCountOp.releaseOp o]
     | none => []))

/-- `WeakReferenceCounterClear` (threaded build) with the
reference-count operations of its store made explicit: the store into
the referred slot is `plainStore`, not `UpdateRef`. -/
def WeakReferenceCounterClearTraced (c : Counter) :
    Option (Counter × List RefCountOp) := do
  let l1 ← lock c.lock
  let stored := plainStore none
  let l2 ← unlock l1
  return ({ referred := stored.1, lock := l2 }, stored.2)

/-! ## Sequential model of counter acquisition -/

/-- The part of `MetaObjHeader` this file touches: the cached counter
pointer `counter_` and, for ObjC object wrappers, the wrapped foreign
handle `associatedObject_`. -/
structure MetaObjHeader where
  counter_ : Option ObjPtr
  associatedObject_ : Nat
deriving DecidableEq, Repr

/-- Modelled from the spec: `UpdateRefIfNull(location, object)`
(declared in Memory.h, body not part of this fragment) atomically
installs `object` into `location` if the location still holds null, and
leaves the location untouched otherwise. -/
def UpdateRefIfNull (location : Option ObjPtr) (object : ObjPtr) : Option ObjPtr :=
  match location with
  | none => some object
  | some c => some c

/-- The value `Konan_getWeakReferenceImpl` returns: either the foreign
(ObjC) weak reference built from the wrapped handle, or the counter
object read from `meta->counter_`. -/
inductive WeakRefResult
  | objcWeakRef (assoc : Nat)
  | counterRef (c : Option ObjPtr)
deriving DecidableEq, Repr

/-- The observable effect of one `Konan_getWeakReferenceImpl` call:
its returned value, the metadata state after the call, whether
`makeWeakReferenceCounter` was invoked, and whether `meta->counter_`
was read or written at all. -/
structure GetWeakEffect where
  result : WeakRefResult
  meta : MetaObjHeader
  counterAllocated : Bool
  cacheAccessed : Bool
deriving DecidableEq, Repr

/-- `Konan_getWeakReferenceImpl(referred)` run without interference:
when ObjC interop is compiled in and `IsInstance(referred,
theObjCObjectWrapperTypeInfo)` holds, return
`makeObjCWeakReferenceImpl(meta->associatedObject_)`; otherwise, if
`meta->counter_` is null, allocate a candidate counter (`fresh` is the
object `makeWeakReferenceCounter` would return) and install it with
`UpdateRefIfNull`; finally return `meta->counter_` re-read after the
install attempt. -/
def Konan_getWeakReferenceImpl (objcInterop : Bool) (isObjCWrapper : Bool)
    (meta : MetaObjHeader) (fresh : ObjPtr) : GetWeakEffect :=
  if objcInterop && isObjCWrapper then
    { result := WeakRefResult.objcWeakRef meta.associatedObject_
      meta := meta
      counterAllocated := false
      cacheAccessed := false }
  else if meta.counter_ = none then
    let meta1 : MetaObjHeader :=
      { meta with counter_ := UpdateRefIfNull meta.counter_ fresh }
    { result := WeakRefResult.counterRef meta1.counter_
      meta := meta1
      counterAllocated := true
      cacheAccessed := true }
  else
    { result := WeakRefResult.counterRef meta.counter_
      meta := meta
      counterAllocated := false
      cacheAccessed := true }

/-! ## Interleaved execution

A configuration is a shared state together with a list of thread
programs; at each step the scheduler picks one thread and runs its next
atomic instruction. -/

/-- One scheduler step: some thread `i` executes its next atomic
instruction `f` on the shared state. -/
inductive Interleave {σ π : Type} (f : σ → π → σ × π) :
    σ × List π → σ × List π → Prop
  | mk (s : σ) (ts : List π) (i : Nat) (h : i < ts.length) :
      Interleave f (s, ts) ((f s ts[i]).1, ts.set i (f s ts[i]).2)

/-- Run the thread at index `i` once (out-of-range indices are
ignored). -/
def stepAt {σ π : Type} (f : σ → π → σ × π) (c : σ × List π) (i : Nat) :
    σ × List π :=
  if h : i < c.2.length then
    ((f c.1 c.2[i]).1, c.2.set i (f c.1 c.2[i]).2)
  else c

/-- Run a whole schedule, one thread index at a time. -/
def runSched {σ π : Type} (f : σ → π → σ × π) (c : σ × List π) :
    List Nat → σ × List π
  | [] => c
  | i :: rest => runSched f (stepAt f c i) rest

theorem reachable_stepAt {σ π : Type} (f : σ → π → σ × π) (c : σ × List π)
    (i : Nat) : Relation.ReflTransGen (Interleave f) c (stepAt f c i) := by
  unfold stepAt
  split
  · exact Relation.ReflTransGen.single (Interleave.mk c.1 c.2 i (by assumption))
  · exact Relation.ReflTransGen.refl

theorem reachable_runSched {σ π : Type} (f : σ → π → σ × π) (c : σ × List π)
    (l : List Nat) :
    Relation.ReflTransGen (Interleave f) c (runSched f c l) := by
  induction l generalizing c with
  | nil => exact Relation.ReflTransGen.refl
  | cons i rest ih =>
      exact Relation.ReflTransGen.trans (reachable_stepAt f c i) (ih (stepAt f c i))

/-- An invariant preserved by every single-thread step is preserved
along every interleaved execution. -/
theorem reachable_preserve {σ π : Type} {f : σ → π → σ × π}
    {P : σ × List π → Prop}
    (hstep : ∀ (s : σ) (ts : List π) (i : Nat) (h : i < ts.length),
      P (s, ts) → P ((f s ts[i]).1, ts.set i (f s ts[i]).2))
    {c c2 : σ × List π} (hr : Relation.ReflTransGen (Interleave f) c c2)
    (hP : P c) : P c2 := by
  induction hr with
  | refl => exact hP
  | tail _ h2 ih =>
      cases h2 with
      | mk s ts i h => exact hstep s ts i h ih

/-! ## The interleaved model of the counter operations

Each line of the critical sections in `Konan_WeakReferenceCounter_get`
and `WeakReferenceCounterClear` (threaded build) is one atomic step:
one CAS iteration of the spin loop, the slot read into the rooted
holder, the slot store, and the unlocking CAS together with its
`RuntimeAssert`. -/

/-- Shared per-counter state seen by racing threads: the referred slot,
the spin-lock word, and whether the `RuntimeAssert(old == 1)` inside
`unlock` has ever failed. -/
structure SState where
  referred : Option ObjPtr
  lock : Nat
  assertFailed : Bool
deriving DecidableEq, Repr

/-- The program counter of one thread running
`Konan_WeakReferenceCounter_get` (the `get*` stages) or
`WeakReferenceCounterClear` (the `clear*` stages) on the shared
counter. `getRelease copy` carries the rooted `ObjHolder` copy taken
under the lock; `getDone result` carries the returned value. -/
inductive TP
  | getAcquire
  | getRead
  | getRelease (copy : Option ObjPtr)
  | getDone (result : Option ObjPtr)
  | clearAcquire
  | clearWrite
  | clearRelease
  | clearDone
deriving DecidableEq, Repr

/-- One atomic instruction of a thread at program counter `p` on shared
state `s`. A `getAcquire`/`clearAcquire` step is one CAS iteration of
the `lock` spin loop; `getRead` copies the slot into the holder;
`clearWrite` plainly stores null into the slot; the release steps are
the unlocking CAS, recording a failure of its `RuntimeAssert`. -/
def tstep (s : SState) (p : TP) : SState × TP :=
  match p with
  | TP.getAcquire =>
      let r := casVal s.lock 0 1
      if r.1 = 1 then (s, TP.getAcquire)
      else ({ s with lock := r.2 }, TP.getRead)
  | TP.getRead => (s, TP.getRelease s.referred)
  | TP.getRelease copy =>
      let r := casVal s.lock 1 0
      ({ s with lock := r.2, assertFailed := s.assertFailed || (r.1 != 1) },
        TP.getDone copy)
  | TP.getDone v => (s, TP.getDone v)
  | TP.clearAcquire =>
      let r := casVal s.lock 0 1
      if r.1 = 1 then (s, TP.clearAcquire)
      else ({ s with lock := r.2 }, TP.clearWrite)
  | TP.clearWrite => ({ s with referred := none }, TP.clearRelease)
  | TP.clearRelease =>
      let r := casVal s.lock 1 0
      ({ s with lock := r.2, assertFailed := s.assertFailed || (r.1 != 1) },
        TP.clearDone)
  | TP.clearDone => (s, TP.clearDone)

/-- A configuration of the racing-threads system. -/
abbrev Cfg := SState × List TP

/-- One scheduler step of the racing-threads system. -/
abbrev SysStep : Cfg → Cfg → Prop := Interleave tstep

/-- Reachability in the racing-threads system. -/
abbrev Reach : Cfg → Cfg → Prop := Relation.ReflTransGen SysStep

/-! ## Invariants of the interleaved model -/

/-- No atomic step ever stores a non-null value into the referred slot:
a step either leaves the slot alone or nulls it. -/
theorem tstep_referred (s : SState) (p : TP) :
    ((tstep s p).1).referred = s.referred ∨ ((tstep s p).1).referred = none := by
  cases p
  case getAcquire =>
    by_cases h1 : s.lock = 0 <;> by_cases h2 : s.lock = 1 <;>
      simp [tstep, casVal, h1, h2]
  case clearAcquire =>
    by_cases h1 : s.lock = 0 <;> by_cases h2 : s.lock = 1 <;>
      simp [tstep, casVal, h1, h2]
  case clearWrite => exact Or.inr rfl
  all_goals exact Or.inl rfl

/-- Once the referred slot is null it stays null across every atomic
step (monotonic invalidation at the level of single instructions). -/
theorem tstep_referred_sticky (s : SState) (p : TP) (h : s.referred = none) :
    ((tstep s p).1).referred = none := by
  rcases tstep_referred s p with h2 | h2 <;> rw [h2]
  exact h

/-- Thread stages at which the `WeakReferenceCounterClear` body has
already executed its null store. -/
def clearLate : TP → Bool
  | TP.clearRelease => true
  | TP.clearDone => true
  | _ => false

/-- If any thread is past the null store of a clear, the referred slot
is null. -/
def ClearNullInv (c : Cfg) : Prop :=
  ∀ p ∈ c.2, clearLate p = true → c.1.referred = none

theorem clearNullInv_step (s : SState) (ts : List TP) (i : Nat)
    (h : i < ts.length) (hI : ClearNullInv (s, ts)) :
    ClearNullInv ((tstep s ts[i]).1, ts.set i (tstep s ts[i]).2) := by
  intro p hp hlate
  rcases List.mem_or_eq_of_mem_set hp with hmem | rfl
  · exact tstep_referred_sticky s ts[i] (hI p hmem hlate)
  · have hmemi : ts[i] ∈ ts := List.getElem_mem h
    have hsticky := tstep_referred s ts[i]
    revert hlate hmemi hsticky
    generalize ts[i] = q
    intro hlate hmemi hsticky
    cases q
    case getAcquire =>
      by_cases h1 : s.lock = 0 <;> by_cases h2 : s.lock = 1 <;>
        simp [tstep, casVal, h1, h2, clearLate] at hlate
    case clearAcquire =>
      by_cases h1 : s.lock = 0 <;> by_cases h2 : s.lock = 1 <;>
        simp [tstep, casVal, h1, h2, clearLate] at hlate
    case getRead => simp [tstep, clearLate] at hlate
    case getRelease copy => simp [tstep, clearLate] at hlate
    case getDone v => simp [tstep, clearLate] at hlate
    case clearWrite => simp [tstep]
    case clearRelease =>
      have h0 : s.referred = none := hI TP.clearRelease hmemi rfl
      rcases hsticky with h3 | h3 <;> simp [h3, h0]
    case clearDone =>
      have h0 : s.referred = none := hI TP.clearDone hmemi rfl
      rcases hsticky with h3 | h3 <;> simp [h3, h0]

/-- The stages a thread materializing an already-cleared counter can be
in: before the slot read, or after it holding a null copy. -/
def nullGetPhase : TP → Bool
  | TP.getAcquire => true
  | TP.getRead => true
  | TP.getRelease none => true
  | TP.getDone none => true
  | _ => false

/-- Once the referred slot is null, a thread that still has to read the
slot can only ever obtain a null copy (per-thread invariant for
thread `i0`). -/
def NullGetInv (i0 : Nat) (c : Cfg) : Prop :=
  c.1.referred = none ∧ ∀ p, c.2[i0]? = some p → nullGetPhase p = true

theorem nullGetInv_step (i0 : Nat) (s : SState) (ts : List TP) (i : Nat)
    (h : i < ts.length) (hI : NullGetInv i0 (s, ts)) :
    NullGetInv i0 ((tstep s ts[i]).1, ts.set i (tstep s ts[i]).2) := by
  obtain ⟨h0, hpc⟩ := hI
  have h0 : s.referred = none := h0
  have hpc : ∀ p, ts[i0]? = some p → nullGetPhase p = true := hpc
  refine ⟨tstep_referred_sticky s ts[i] h0, ?_⟩
  intro p hp
  by_cases hij : i = i0
  · subst hij
    rw [List.getElem?_set_eq_of_lt _ h] at hp
    injection hp with hp
    subst hp
    have hold : nullGetPhase ts[i] = true := hpc ts[i] (List.getElem?_eq_getElem h)
    revert hold
    generalize ts[i] = q
    intro hold
    cases q with
    | getAcquire =>
      by_cases h1 : s.lock = 0 <;> by_cases h2 : s.lock = 1 <;>
        simp [tstep, casVal, h1, h2, nullGetPhase]
    | getRead => simp [tstep, h0, nullGetPhase]
    | getRelease copy =>
      cases copy with
      | none => simp [tstep, nullGetPhase]
      | some x => simp [nullGetPhase] at hold
    | getDone v =>
      cases v with
      | none => simp [tstep, nullGetPhase]
      | some x => simp [nullGetPhase] at hold
    | clearAcquire => simp [nullGetPhase] at hold
    | clearWrite => simp [nullGetPhase] at hold
    | clearRelease => simp [nullGetPhase] at hold
    | clearDone => simp [nullGetPhase] at hold
  · rw [List.getElem?_set_ne hij] at hp
    exact hpc p hp

/-- Values a slot or a thread-held copy may contain in a system whose
slot started as `some r`: the original referent or null. -/
def valOk (r : ObjPtr) : Option ObjPtr → Bool
  | none => true
  | some x => x == r

/-- The copy carried by a thread stage is an allowed value. -/
def phaseOk (r : ObjPtr) : TP → Bool
  | TP.getRelease c => valOk r c
  | TP.getDone v => valOk r v
  | _ => true

/-- In a system whose slot started as `some r`, the slot and every
thread-held copy always contain either `some r` or null. -/
def TornFreeInv (r : ObjPtr) (c : Cfg) : Prop :=
  valOk r c.1.referred = true ∧ ∀ p ∈ c.2, phaseOk r p = true

theorem tornFreeInv_step (r : ObjPtr) (s : SState) (ts : List TP) (i : Nat)
    (h : i < ts.length) (hI : TornFreeInv r (s, ts)) :
    TornFreeInv r ((tstep s ts[i]).1, ts.set i (tstep s ts[i]).2) := by
  obtain ⟨h0, hall⟩ := hI
  have h0 : valOk r s.referred = true := h0
  have hall : ∀ p ∈ ts, phaseOk r p = true := hall
  constructor
  · rcases tstep_referred s ts[i] with h3 | h3 <;> rw [h3]
    · exact h0
    · rfl
  · intro p hp
    rcases List.mem_or_eq_of_mem_set hp with hmem | rfl
    · exact hall p hmem
    · have holdp : phaseOk r ts[i] = true := hall ts[i] (List.getElem_mem h)
      revert holdp
      generalize ts[i] = q
      intro holdp
      cases q with
      | getAcquire =>
        by_cases h1 : s.lock = 0 <;> by_cases h2 : s.lock = 1 <;>
          simp [tstep, casVal, h1, h2, phaseOk]
      | getRead => simpa [tstep, phaseOk] using h0
      | getRelease copy => simpa [tstep, phaseOk] using holdp
      | getDone v => simpa [tstep, phaseOk] using holdp
      | clearAcquire =>
        by_cases h1 : s.lock = 0 <;> by_cases h2 : s.lock = 1 <;>
          simp [tstep, casVal, h1, h2, phaseOk]
      | clearWrite => simp [tstep, phaseOk]
      | clearRelease => simp [tstep, phaseOk]
      | clearDone => simp [tstep, phaseOk]

/-- Thread stages inside the spin-lock-protected critical section
(between a successful locking CAS and the unlocking CAS). -/
def inCS : TP → Bool
  | TP.getRead => true
  | TP.getRelease _ => true
  | TP.clearWrite => true
  | TP.clearRelease => true
  | _ => false

/-- The lock-word invariant of the spin-lock discipline: the flag is 0
with no thread in the critical section, or 1 with exactly one thread in
the critical section. -/
def LockInv (c : Cfg) : Prop :=
  (c.1.lock = 0 ∧ c.2.countP inCS = 0) ∨ (c.1.lock = 1 ∧ c.2.countP inCS = 1)

theorem lockInv_step (s : SState) (ts : List TP) (i : Nat) (h : i < ts.length)
    (hL : LockInv (s, ts)) :
    LockInv ((tstep s ts[i]).1, ts.set i (tstep s ts[i]).2) := by
  have hL : (s.lock = 0 ∧ ts.countP inCS = 0) ∨
      (s.lock = 1 ∧ ts.countP inCS = 1) := hL
  have hmemi : ts[i] ∈ ts := List.getElem_mem h
  have hcount := List.countP_set inCS ts i ((tstep s ts[i]).2) h
  revert hmemi hcount
  generalize ts[i] = q
  intro hmemi hcount
  show ((tstep s q).1.lock = 0 ∧ (ts.set i (tstep s q).2).countP inCS = 0) ∨
      ((tstep s q).1.lock = 1 ∧ (ts.set i (tstep s q).2).countP inCS = 1)
  rcases hL with ⟨hl, hc⟩ | ⟨hl, hc⟩
  · cases q with
    | getAcquire =>
        refine Or.inr ⟨by simp [tstep, casVal, hl], ?_⟩
        rw [hcount, hc]
        simp [tstep, casVal, hl, inCS]
    | getRead =>
        exact absurd hc
          (by have : 0 < ts.countP inCS := List.countP_pos_iff.mpr ⟨_, hmemi, rfl⟩
              omega)
    | getRelease copy =>
        exact absurd hc
          (by have : 0 < ts.countP inCS := List.countP_pos_iff.mpr ⟨_, hmemi, rfl⟩
              omega)
    | getDone v =>
        refine Or.inl ⟨by simpa [tstep] using hl, ?_⟩
        rw [hcount, hc]
        simp [tstep, inCS]
    | clearAcquire =>
        refine Or.inr ⟨by simp [tstep, casVal, hl], ?_⟩
        rw [hcount, hc]
        simp [tstep, casVal, hl, inCS]
    | clearWrite =>
        exact absurd hc
          (by have : 0 < ts.countP inCS := List.countP_pos_iff.mpr ⟨_, hmemi, rfl⟩
              omega)
    | clearRelease =>
        exact absurd hc
          (by have : 0 < ts.countP inCS := List.countP_pos_iff.mpr ⟨_, hmemi, rfl⟩
              omega)
    | clearDone =>
        refine Or.inl ⟨by simpa [tstep] using hl, ?_⟩
        rw [hcount, hc]
        simp [tstep, inCS]
  · cases q with
    | getAcquire =>
        refine Or.inr ⟨by simp [tstep, casVal, hl], ?_⟩
        rw [hcount, hc]
        simp [tstep, casVal, hl, inCS]
    | getRead =>
        refine Or.inr ⟨by simpa [tstep] using hl, ?_⟩
        rw [hcount, hc]
        simp [tstep, inCS]
    | getRelease copy =>
        refine Or.inl ⟨by simp [tstep, casVal, hl], ?_⟩
        rw [hcount, hc]
        simp [tstep, casVal, hl, inCS]
    | getDone v =>
        refine Or.inr ⟨by simpa [tstep] using hl, ?_⟩
        rw [hcount, hc]
        simp [tstep, inCS]
    | clearAcquire =>
        refine Or.inr ⟨by simp [tstep, casVal, hl], ?_⟩
        rw [hcount, hc]
        simp [tstep, casVal, hl, inCS]
    | clearWrite =>
        refine Or.inr ⟨by simpa [tstep] using hl, ?_⟩
        rw [hcount, hc]
        simp [tstep, inCS]
    | clearRelease =>
        refine Or.inl ⟨by simp [tstep, casVal, hl], ?_⟩
        rw [hcount, hc]
        simp [tstep, casVal, hl, inCS]
    | clearDone =>
        refine Or.inr ⟨by simpa [tstep] using hl, ?_⟩
        rw [hcount, hc]
        simp [tstep, inCS]

/-- The `RuntimeAssert(old == 1)` in `unlock` cannot fire while the
lock-word invariant holds: every unlocking CAS is executed by the one
thread inside the critical section, with the flag at 1. -/
theorem assert_step (s : SState) (ts : List TP) (i : Nat) (h : i < ts.length)
    (hL : LockInv (s, ts)) (hA : s.assertFailed = false) :
    ((tstep s ts[i]).1).assertFailed = false := by
  have hL : (s.lock = 0 ∧ ts.countP inCS = 0) ∨
      (s.lock = 1 ∧ ts.countP inCS = 1) := hL
  have hmemi : ts[i] ∈ ts := List.getElem_mem h
  revert hmemi
  generalize ts[i] = q
  intro hmemi
  cases q with
  | getAcquire =>
      by_cases h1 : s.lock = 0 <;> by_cases h2 : s.lock = 1 <;>
        simp [tstep, casVal, h1, h2, hA]
  | getRead => simpa [tstep] using hA
  | getRelease copy =>
      have hl : s.lock = 1 := by
        rcases hL with ⟨hl, hc⟩ | ⟨hl, hc⟩
        · exact absurd hc
            (by have : 0 < ts.countP inCS := List.countP_pos_iff.mpr ⟨_, hmemi, rfl⟩
                omega)
        · exact hl
      simp [tstep, casVal, hl, hA]
  | getDone v => simpa [tstep] using hA
  | clearAcquire =>
      by_cases h1 : s.lock = 0 <;> by_cases h2 : s.lock = 1 <;>
        simp [tstep, casVal, h1, h2, hA]
  | clearWrite => simpa [tstep] using hA
  | clearRelease =>
      have hl : s.lock = 1 := by
        rcases hL with ⟨hl, hc⟩ | ⟨hl, hc⟩
        · exact absurd hc
            (by have : 0 < ts.countP inCS := List.countP_pos_iff.mpr ⟨_, hmemi, rfl⟩
                omega)
        · exact hl
      simp [tstep, casVal, hl, hA]
  | clearDone => simpa [tstep] using hA

/-! ## Theorems on the interleaved model -/

/-- C1: monotonic invalidation — in any interleaved execution starting
from threads about to run `Konan_WeakReferenceCounter_get` or
`WeakReferenceCounterClear`, once some thread has completed a clear,
the referred slot is null, it stays null in every later reachable
configuration, and every materialization that starts after that point
(a thread still at its lock-acquire stage when the clear is complete)
returns null. -/
theorem clear_monotonic_invalidation (init mid fin : Cfg) (i j : Nat)
    (v : Option ObjPtr)
    (hinit : ∀ p ∈ init.2, p = TP.getAcquire ∨ p = TP.clearAcquire)
    (h1 : Reach init mid)
    (hj : mid.2[j]? = some TP.clearDone)
    (hi : mid.2[i]? = some TP.getAcquire)
    (h2 : Reach mid fin)
    (hv : fin.2[i]? = some (TP.getDone v)) :
    mid.1.referred = none ∧ fin.1.referred = none ∧ v = none := by
  have hInv0 : ClearNullInv init := by
    intro p hp hlate
    rcases hinit p hp with rfl | rfl <;> simp [clearLate] at hlate
  have hmid0 : ClearNullInv mid :=
    reachable_preserve (fun s ts k hk hP => clearNullInv_step s ts k hk hP) h1 hInv0
  have hmidnull : mid.1.referred = none :=
    hmid0 TP.clearDone (List.getElem?_mem hj) rfl
  have hInv1 : NullGetInv i mid := by
    refine ⟨hmidnull, ?_⟩
    intro p hp
    rw [hi] at hp
    injection hp with hp
    rw [← hp]
    rfl
  have hfin : NullGetInv i fin :=
    reachable_preserve (fun s ts k hk hP => nullGetInv_step i s ts k hk hP) h2 hInv1
  refine ⟨hmidnull, hfin.1, ?_⟩
  have hdone := hfin.2 (TP.getDone v) hv
  cases v with
  | none => rfl
  | some x => simp [nullGetPhase] at hdone

theorem clear_monotonic_invalidation_witness :
    Reach ({ referred := some 5, lock := 0, assertFailed := false },
        [TP.getAcquire, TP.clearAcquire])
      ({ referred := none, lock := 0, assertFailed := false },
        [TP.getAcquire, TP.clearDone]) ∧
    Reach ({ referred := none, lock := 0, assertFailed := false },
        [TP.getAcquire, TP.clearDone])
      ({ referred := none, lock := 0, assertFailed := false },
        [TP.getDone none, TP.clearDone]) ∧
    (none : Option ObjPtr) = none := by
  have hr1 : Reach ({ referred := some 5, lock := 0, assertFailed := false },
      [TP.getAcquire, TP.clearAcquire])
      ({ referred := none, lock := 0, assertFailed := false },
        [TP.getAcquire, TP.clearDone]) := by
    have hrun := reachable_runSched tstep
      (({ referred := some 5, lock := 0, assertFailed := false },
        [TP.getAcquire, TP.clearAcquire]) : Cfg) [1, 1, 1]
    have heq : runSched tstep
        (({ referred := some 5, lock := 0, assertFailed := false },
          [TP.getAcquire, TP.clearAcquire]) : Cfg) [1, 1, 1] =
        ({ referred := none, lock := 0, assertFailed := false },
          [TP.getAcquire, TP.clearDone]) := by decide
    rw [heq] at hrun
    exact hrun
  have hr2 : Reach ({ referred := none, lock := 0, assertFailed := false },
      [TP.getAcquire, TP.clearDone])
      ({ referred := none, lock := 0, assertFailed := false },
        [TP.getDone none, TP.clearDone]) := by
    have hrun := reachable_runSched tstep
      (({ referred := none, lock := 0, assertFailed := false },
        [TP.getAcquire, TP.clearDone]) : Cfg) [0, 0, 0]
    have heq : runSched tstep
        (({ referred := none, lock := 0, assertFailed := false },
          [TP.getAcquire, TP.clearDone]) : Cfg) [0, 0, 0] =
        ({ referred := none, lock := 0, assertFailed := false },
          [TP.getDone none, TP.clearDone]) := by decide
    rw [heq] at hrun
    exact hrun
  refine ⟨hr1, hr2, ?_⟩
  exact (clear_monotonic_invalidation
    ({ referred := some 5, lock := 0, assertFailed := false },
      [TP.getAcquire, TP.clearAcquire])
    ({ referred := none, lock := 0, assertFailed := false },
      [TP.getAcquire, TP.clearDone])
    ({ referred := none, lock := 0, assertFailed := false },
      [TP.getDone none, TP.clearDone])
    0 1 none (by decide) hr1 (by decide) (by decide) hr2 (by decide)).2.2

/-- C8: tear-freedom under concurrent clear — in any interleaved
execution starting from a slot holding the referent `r` and threads
about to run materializations or clears, every completed
materialization returns the value the slot held at the single instant
of its locked copy: the pre-clear referent `some r` or null, never any
other (torn) pointer value. -/
theorem get_pre_clear_or_null (init fin : Cfg) (r : ObjPtr) (i : Nat)
    (v : Option ObjPtr)
    (h0 : init.1.referred = some r)
    (hinit : ∀ p ∈ init.2, p = TP.getAcquire ∨ p = TP.clearAcquire)
    (h : Reach init fin)
    (hv : fin.2[i]? = some (TP.getDone v)) :
    v = some r ∨ v = none := by
  have hI : TornFreeInv r init := by
    constructor
    · rw [h0]
      simp [valOk]
    · intro p hp
      rcases hinit p hp with rfl | rfl <;> rfl
  have hF : TornFreeInv r fin :=
    reachable_preserve (fun s ts k hk hP => tornFreeInv_step r s ts k hk hP) h hI
  have hd : phaseOk r (TP.getDone v) = true := hF.2 _ (List.getElem?_mem hv)
  cases v with
  | none => exact Or.inr rfl
  | some x =>
      have hx : (x == r) = true := hd
      exact Or.inl (congrArg some (by simpa using hx))

theorem get_pre_clear_or_null_witness :
    ({ referred := some 5, lock := 0, assertFailed := false } : SState).referred =
        some 5 ∧
    Reach ({ referred := some 5, lock := 0, assertFailed := false },
        [TP.getAcquire, TP.clearAcquire])
      ({ referred := none, lock := 0, assertFailed := false },
        [TP.getDone (some 5), TP.clearDone]) ∧
    ((some 5 : Option ObjPtr) = some 5 ∨ (some 5 : Option ObjPtr) = none) := by
  have hr : Reach ({ referred := some 5, lock := 0, assertFailed := false },
      [TP.getAcquire, TP.clearAcquire])
      ({ referred := none, lock := 0, assertFailed := false },
        [TP.getDone (some 5), TP.clearDone]) := by
    have hrun := reachable_runSched tstep
      (({ referred := some 5, lock := 0, assertFailed := false },
        [TP.getAcquire, TP.clearAcquire]) : Cfg) [0, 0, 0, 1, 1, 1]
    have heq : runSched tstep
        (({ referred := some 5, lock := 0, assertFailed := false },
          [TP.getAcquire, TP.clearAcquire]) : Cfg) [0, 0, 0, 1, 1, 1] =
        ({ referred := none, lock := 0, assertFailed := false },
          [TP.getDone (some 5), TP.clearDone]) := by decide
    rw [heq] at hrun
    exact hrun
  refine ⟨rfl, hr, ?_⟩
  exact get_pre_clear_or_null
    ({ referred := some 5, lock := 0, assertFailed := false },
      [TP.getAcquire, TP.clearAcquire])
    ({ referred := none, lock := 0, assertFailed := false },
      [TP.getDone (some 5), TP.clearDone])
    5 0 (some 5) rfl (by decide) hr (by decide)

/-- C7: unlock assertion validity — in any interleaved execution
starting with the exclusion flag free, the assertion never yet failed,
and no thread inside a critical section (the well-formed lock/unlock
discipline of these operations), the `RuntimeAssert(old == 1,
"Incorrect lock state")` in `unlock` never fails: its failure flag is
false in every reachable configuration. -/
theorem unlock_assert_never_fails (init fin : Cfg)
    (hlock : init.1.lock = 0)
    (hassert : init.1.assertFailed = false)
    (hinit : ∀ p ∈ init.2, inCS p = false)
    (h : Reach init fin) :
    fin.1.assertFailed = false := by
  have hI : LockInv init ∧ init.1.assertFailed = false := by
    refine ⟨Or.inl ⟨hlock, List.countP_eq_zero.mpr ?_⟩, hassert⟩
    intro p hp
    simp [hinit p hp]
  have hF : LockInv fin ∧ fin.1.assertFailed = false :=
    @reachable_preserve SState TP tstep
      (fun c => LockInv c ∧ c.1.assertFailed = false)
      (fun s ts k hk hP =>
        ⟨lockInv_step s ts k hk hP.1, assert_step s ts k hk hP.1 hP.2⟩)
      init fin h hI
  exact hF.2

theorem unlock_assert_never_fails_witness :
    (({ referred := some 5, lock := 0, assertFailed := false },
        [TP.getAcquire, TP.clearAcquire]) : Cfg).1.lock = 0 ∧
    Reach ({ referred := some 5, lock := 0, assertFailed := false },
        [TP.getAcquire, TP.clearAcquire])
      ({ referred := none, lock := 0, assertFailed := false },
        [TP.getDone (some 5), TP.clearDone]) ∧
    (({ referred := none, lock := 0, assertFailed := false },
        [TP.getDone (some 5), TP.clearDone]) : Cfg).1.assertFailed = false := by
  have hr : Reach ({ referred := some 5, lock := 0, assertFailed := false },
      [TP.getAcquire, TP.clearAcquire])
      ({ referred := none, lock := 0, assertFailed := false },
        [TP.getDone (some 5), TP.clearDone]) := by
    have hrun := reachable_runSched tstep
      (({ referred := some 5, lock := 0, assertFailed := false },
        [TP.getAcquire, TP.clearAcquire]) : Cfg) [0, 0, 0, 1, 1, 1]
    have heq : runSched tstep
        (({ referred := some 5, lock := 0, assertFailed := false },
          [TP.getAcquire, TP.clearAcquire]) : Cfg) [0, 0, 0, 1, 1, 1] =
        ({ referred := none, lock := 0, assertFailed := false },
          [TP.getDone (some 5), TP.clearDone]) := by decide
    rw [heq] at hrun
    exact hrun
  refine ⟨rfl, hr, ?_⟩
  exact unlock_assert_never_fails
    ({ referred := some 5, lock := 0, assertFailed := false },
      [TP.getAcquire, TP.clearAcquire])
    ({ referred := none, lock := 0, assertFailed := false },
      [TP.getDone (some 5), TP.clearDone])
    rfl rfl (by decide) hr

/-- C10: lock-flag invariant — in any interleaved execution starting
with a free exclusion flag and no thread inside a critical section, the
flag only ever holds 0 or 1, and in every quiescent reachable
configuration (no thread inside a critical section — in particular when
every materialization and clear has completed) the flag is back to
0. -/
theorem lock_flag_invariant (init fin : Cfg)
    (hlock : init.1.lock = 0)
    (hinit : ∀ p ∈ init.2, inCS p = false)
    (h : Reach init fin) :
    (fin.1.lock = 0 ∨ fin.1.lock = 1) ∧
      ((∀ p ∈ fin.2, inCS p = false) → fin.1.lock = 0) := by
  have hI : LockInv init := by
    refine Or.inl ⟨hlock, List.countP_eq_zero.mpr ?_⟩
    intro p hp
    simp [hinit p hp]
  have hF : LockInv fin :=
    reachable_preserve (fun s ts k hk hP => lockInv_step s ts k hk hP) h hI
  constructor
  · rcases hF with ⟨hl, _⟩ | ⟨hl, _⟩
    · exact Or.inl hl
    · exact Or.inr hl
  · intro hquiet
    rcases hF with ⟨hl, _⟩ | ⟨hl, hc⟩
    · exact hl
    · exfalso
      have hzero : fin.2.countP inCS = 0 := by
        refine List.countP_eq_zero.mpr ?_
        intro p hp
        simp [hquiet p hp]
      omega

theorem lock_flag_invariant_witness :
    (({ referred := some 5, lock := 0, assertFailed := false },
        [TP.getAcquire, TP.clearAcquire]) : Cfg).1.lock = 0 ∧
    Reach ({ referred := some 5, lock := 0, assertFailed := false },
        [TP.getAcquire, TP.clearAcquire])
      ({ referred := none, lock := 0, assertFailed := false },
        [TP.getDone (some 5), TP.clearDone]) ∧
    ((({ referred := none, lock := 0, assertFailed := false },
        [TP.getDone (some 5), TP.clearDone]) : Cfg).1.lock = 0 ∨
      (({ referred := none, lock := 0, assertFailed := false },
        [TP.getDone (some 5), TP.clearDone]) : Cfg).1.lock = 1) := by
  have hr : Reach ({ referred := some 5, lock := 0, assertFailed := false },
      [TP.getAcquire, TP.clearAcquire])
      ({ referred := none, lock := 0, assertFailed := false },
        [TP.getDone (some 5), TP.clearDone]) := by
    have hrun := reachable_runSched tstep
      (({ referred := some 5, lock := 0, assertFailed := false },
        [TP.getAcquire, TP.clearAcquire]) : Cfg) [0, 0, 0, 1, 1, 1]
    have heq : runSched tstep
        (({ referred := some 5, lock := 0, assertFailed := false },
          [TP.getAcquire, TP.clearAcquire]) : Cfg) [0, 0, 0, 1, 1, 1] =
        ({ referred := none, lock := 0, assertFailed := false },
          [TP.getDone (some 5), TP.clearDone]) := by decide
    rw [heq] at hrun
    exact hrun
  refine ⟨rfl, hr, ?_⟩
  exact (lock_flag_invariant
    ({ referred := some 5, lock := 0, assertFailed := false },
      [TP.getAcquire, TP.clearAcquire])
    ({ referred := none, lock := 0, assertFailed := false },
      [TP.getDone (some 5), TP.clearDone])
    rfl (by decide) hr).1

/-! ## The interleaved model of counter acquisition

For a native referent, the body of `Konan_getWeakReferenceImpl` is
split into its atomic accesses to the shared cache entry
`meta->counter_`: the null check, the `UpdateRefIfNull` install
attempt with this thread's freshly allocated candidate, and the final
re-read `RETURN_OBJ(meta->counter_)`. The shared state is the cache
entry itself. -/

/-- The program counter of one thread running
`Konan_getWeakReferenceImpl` on the same native referent. `start cand`
carries the candidate counter object this thread would allocate with
`makeWeakReferenceCounter` if it finds the cache entry null. -/
inductive AcqTP
  | start (cand : ObjPtr)
  | install (cand : ObjPtr)
  | reread
  | done (result : Option ObjPtr)
deriving DecidableEq, Repr

/-- One atomic access of an acquiring thread to the shared cache entry
`m`: the null check (`meta->counter_ == nullptr`), the atomic
`UpdateRefIfNull(&meta->counter_, counter)` install attempt, and the
final `RETURN_OBJ(meta->counter_)` re-read. -/
def acqStep (m : Option ObjPtr) (p : AcqTP) : Option ObjPtr × AcqTP :=
  match p with
  | AcqTP.start cand =>
      (m, if m = none then AcqTP.install cand else AcqTP.reread)
  | AcqTP.install cand => (UpdateRefIfNull m cand, AcqTP.reread)
  | AcqTP.reread => (m, AcqTP.done m)
  | AcqTP.done r => (m, AcqTP.done r)

/-- A configuration of the acquisition race: the cache entry and the
racing threads. -/
abbrev ACfg := Option ObjPtr × List AcqTP

/-- One scheduler step of the acquisition race. -/
abbrev AStep : ACfg → ACfg → Prop := Interleave acqStep

/-- Reachability in the acquisition race. -/
abbrev AReach : ACfg → ACfg → Prop := Relation.ReflTransGen AStep

/-- The cache entry is written at most once: once it holds a counter it
holds that same counter after every step. -/
theorem acqStep_mono (m : Option ObjPtr) (p : AcqTP) (c : ObjPtr)
    (h : m = some c) : (acqStep m p).1 = some c := by
  subst h
  cases p <;> simp [acqStep, UpdateRefIfNull]

/-- Any thread past its install attempt sees an installed entry, and
any finished thread's result is exactly the (installed) entry. -/
def AcqInv (c : ACfg) : Prop :=
  ∀ p ∈ c.2, (p = AcqTP.reread → c.1.isSome = true) ∧
    (∀ r, p = AcqTP.done r → r = c.1 ∧ c.1.isSome = true)

theorem acqInv_step (m : Option ObjPtr) (ts : List AcqTP) (i : Nat)
    (h : i < ts.length) (hI : AcqInv (m, ts)) :
    AcqInv ((acqStep m ts[i]).1, ts.set i (acqStep m ts[i]).2) := by
  have hI : ∀ p ∈ ts, (p = AcqTP.reread → m.isSome = true) ∧
      (∀ r, p = AcqTP.done r → r = m ∧ m.isSome = true) := hI
  have hmemi : ts[i] ∈ ts := List.getElem_mem h
  have hmono : ∀ c, m = some c → (acqStep m ts[i]).1 = some c :=
    fun c hc => acqStep_mono m ts[i] c hc
  intro p hp
  rcases List.mem_or_eq_of_mem_set hp with hmem | rfl
  · cases hm : m with
    | none =>
        constructor
        · intro hpr
          have := (hI p hmem).1 hpr
          rw [hm] at this
          exact absurd this (by simp)
        · intro r hpr
          have := ((hI p hmem).2 r hpr).2
          rw [hm] at this
          exact absurd this (by simp)
    | some c =>
        have h2 : (acqStep (some c) ts[i]).1 = some c :=
          acqStep_mono (some c) ts[i] c rfl
        constructor
        · intro _
          show (acqStep (some c) ts[i]).1.isSome = true
          rw [h2]
          rfl
        · intro r hpr
          have h3 := (hI p hmem).2 r hpr
          rw [hm] at h3
          refine ⟨?_, ?_⟩
          · show r = (acqStep (some c) ts[i]).1
            rw [h2]
            exact h3.1
          · show (acqStep (some c) ts[i]).1.isSome = true
            rw [h2]
            rfl
  · have holdi := hI ts[i] hmemi
    revert holdi hmono
    generalize ts[i] = q
    intro hmono holdi
    cases q with
    | start cand =>
        cases hm : m with
        | none => simp [acqStep, hm, UpdateRefIfNull]
        | some c => simp [acqStep, hm, UpdateRefIfNull]
    | install cand =>
        cases hm : m with
        | none => simp [acqStep, hm, UpdateRefIfNull]
        | some c => simp [acqStep, hm, UpdateRefIfNull]
    | reread =>
        have hs : m.isSome = true := holdi.1 rfl
        constructor
        · intro _
          simpa [acqStep] using hs
        · intro r hpr
          injection hpr with hpr
          constructor
          · simpa [acqStep] using hpr.symm
          · simpa [acqStep] using hs
    | done r0 =>
        have hd := holdi.2 r0 rfl
        constructor
        · intro hpr
          exact absurd hpr (by simp [acqStep])
        · intro r hpr
          have : AcqTP.done r0 = AcqTP.done r := by simpa [acqStep] using hpr
          injection this with h4
          subst h4
          exact ⟨by simpa [acqStep] using hd.1, by simpa [acqStep] using hd.2⟩

/-- Threads that have not yet touched the shared cache entry. -/
def acqStart : AcqTP → Bool
  | AcqTP.start _ => true
  | _ => false

/-- C2: canonical single counter per referent — in any interleaved run
of `Konan_getWeakReferenceImpl` bodies over one native referent's cache
entry, the entry is written at most once (once it holds a counter it
holds that same counter forever, the single install winner), and any
two threads that completed — winners and losers of the install race
alike — returned the same value: the counter re-read from the cache
entry after their install attempt. -/
theorem single_canonical_counter (init fin : ACfg)
    (hinit : ∀ p ∈ init.2, acqStart p = true)
    (h : AReach init fin) :
    (∀ c, init.1 = some c → fin.1 = some c) ∧
      (∀ (i j : Nat) (r1 r2 : Option ObjPtr), fin.2[i]? = some (AcqTP.done r1) →
        fin.2[j]? = some (AcqTP.done r2) →
        r1 = r2 ∧ r1 = fin.1 ∧ fin.1.isSome = true) := by
  constructor
  · intro c hc
    exact @reachable_preserve (Option ObjPtr) AcqTP acqStep
      (fun cfg => cfg.1 = some c)
      (fun m ts k hk hP => acqStep_mono m ts[k] c hP)
      init fin h hc
  · have hI : AcqInv init := by
      intro p hp
      constructor
      · intro hpr
        have := hinit p hp
        rw [hpr] at this
        exact absurd this (by simp [acqStart])
      · intro r hpr
        have := hinit p hp
        rw [hpr] at this
        exact absurd this (by simp [acqStart])
    have hF : AcqInv fin :=
      reachable_preserve (fun m ts k hk hP => acqInv_step m ts k hk hP) h hI
    intro i j r1 r2 hi hj
    have h1 := (hF (AcqTP.done r1) (List.getElem?_mem hi)).2 r1 rfl
    have h2 := (hF (AcqTP.done r2) (List.getElem?_mem hj)).2 r2 rfl
    exact ⟨h1.1.trans h2.1.symm, h1.1, h1.2⟩

theorem single_canonical_counter_witness :
    AReach ((none : Option ObjPtr), [AcqTP.start 10, AcqTP.start 20])
        (some 10, [AcqTP.done (some 10), AcqTP.done (some 10)]) ∧
      ((some 10 : Option ObjPtr) = some 10 ∧
        (some 10 : Option ObjPtr) = some 10 ∧
        (some 10 : Option ObjPtr).isSome = true) := by
  have hr : AReach ((none : Option ObjPtr), [AcqTP.start 10, AcqTP.start 20])
      (some 10, [AcqTP.done (some 10), AcqTP.done (some 10)]) := by
    have hrun := reachable_runSched acqStep
      (((none : Option ObjPtr), [AcqTP.start 10, AcqTP.start 20]) : ACfg)
      [0, 1, 0, 1, 0, 1]
    have heq : runSched acqStep
        (((none : Option ObjPtr), [AcqTP.start 10, AcqTP.start 20]) : ACfg)
        [0, 1, 0, 1, 0, 1] =
        (some 10, [AcqTP.done (some 10), AcqTP.done (some 10)]) := by decide
    rw [heq] at hrun
    exact hrun
  refine ⟨hr, ?_⟩
  exact (single_canonical_counter
    ((none : Option ObjPtr), [AcqTP.start 10, AcqTP.start 20])
    (some 10, [AcqTP.done (some 10), AcqTP.done (some 10)])
    (by decide) hr).2 0 1 (some 10) (some 10) (by decide) (by decide)

/-! ## Theorems on the sequential model -/

/-- C9: materialization is a pure read — on any counter whose lock word
is free, `Konan_WeakReferenceCounter_get` returns the current referred
slot and leaves the counter state (slot and lock word) exactly as it
was before the call. -/
theorem get_is_pure_read (c : Counter) (h : c.lock = 0) :
    Konan_WeakReferenceCounter_get c = some (c.referred, c) := by
  obtain ⟨r, l⟩ := c
  simp only [Counter.lock] at h
  subst h
  simp [Konan_WeakReferenceCounter_get, lock, unlock]

theorem get_is_pure_read_witness :
    ({ referred := some 7, lock := 0 } : Counter).lock = 0 ∧
      Konan_WeakReferenceCounter_get { referred := some 7, lock := 0 } =
        some (some 7, { referred := some 7, lock := 0 }) :=
  ⟨rfl, get_is_pure_read { referred := some 7, lock := 0 } rfl⟩

/-- C3: clear is idempotent — applying `WeakReferenceCounterClear`
twice from any counter state with a free lock word yields exactly the
state a single application yields (the second call stores null over
null), and the `KONAN_NO_THREADS` clear is idempotent on every state. -/
theorem clear_idempotent (c : Counter) (h : c.lock = 0) :
    (WeakReferenceCounterClear c).bind WeakReferenceCounterClear =
        WeakReferenceCounterClear c ∧
      WeakReferenceCounterClear_noThreads (WeakReferenceCounterClear_noThreads c) =
        WeakReferenceCounterClear_noThreads c := by
  obtain ⟨r, l⟩ := c
  simp only [Counter.lock] at h
  subst h
  simp [WeakReferenceCounterClear, WeakReferenceCounterClear_noThreads, lock, unlock]

theorem clear_idempotent_witness :
    ({ referred := some 7, lock := 0 } : Counter).lock = 0 ∧
      ((WeakReferenceCounterClear { referred := some 7, lock := 0 }).bind
          WeakReferenceCounterClear =
        WeakReferenceCounterClear { referred := some 7, lock := 0 } ∧
      WeakReferenceCounterClear_noThreads
          (WeakReferenceCounterClear_noThreads { referred := some 7, lock := 0 }) =
        WeakReferenceCounterClear_noThreads { referred := some 7, lock := 0 }) :=
  ⟨rfl, clear_idempotent { referred := some 7, lock := 0 } rfl⟩

/-- C4: build-mode equivalence — on any counter whose lock word is
free (the no-contention situation), the threaded, lock-based
materialization and invalidation return the same result and produce
the same final counter state as the `KONAN_NO_THREADS` plain field
read and plain field write. -/
theorem build_mode_equivalence (c : Counter) (h : c.lock = 0) :
    Konan_WeakReferenceCounter_get c =
        some (Konan_WeakReferenceCounter_get_noThreads c) ∧
      WeakReferenceCounterClear c = some (WeakReferenceCounterClear_noThreads c) := by
  obtain ⟨r, l⟩ := c
  simp only [Counter.lock] at h
  subst h
  simp [Konan_WeakReferenceCounter_get, Konan_WeakReferenceCounter_get_noThreads,
    WeakReferenceCounterClear, WeakReferenceCounterClear_noThreads, lock, unlock]

theorem build_mode_equivalence_witness :
    ({ referred := some 7, lock := 0 } : Counter).lock = 0 ∧
      (Konan_WeakReferenceCounter_get { referred := some 7, lock := 0 } =
        some (Konan_WeakReferenceCounter_get_noThreads { referred := some 7, lock := 0 }) ∧
      WeakReferenceCounterClear { referred := some 7, lock := 0 } =
        some (WeakReferenceCounterClear_noThreads { referred := some 7, lock := 0 })) :=
  ⟨rfl, build_mode_equivalence { referred := some 7, lock := 0 } rfl⟩

/-- C6: clear is non-owning and frame-limited — on any counter whose
lock word is free, `WeakReferenceCounterClear` completes leaving the
referred slot null and every other part of the counter state (the lock
word, which is taken and released transiently) as it was, and the
store it performs emits no reference-count operation at all; by
contrast, routing the same overwrite through the reference-updating
primitive `UpdateRef` would emit a release (decrement) of the previous
referent. -/
theorem clear_non_owning_frame (c : Counter) (h : c.lock = 0) :
    WeakReferenceCounterClearTraced c =
        some ({ referred := none, lock := c.lock }, ([] : List RefCountOp)) ∧
      ∀ r : ObjPtr, (UpdateRef (some r) none).2 = [RefCountOp.releaseOp r] := by
  obtain ⟨rr, l⟩ := c
  simp only [Counter.lock] at h
  subst h
  constructor
  · simp [WeakReferenceCounterClearTraced, plainStore, lock, unlock]
  · intro r
    simp [UpdateRef]

theorem clear_non_owning_frame_witness :
    ({ referred := some 7, lock := 0 } : Counter).lock = 0 ∧
      (WeakReferenceCounterClearTraced { referred := some 7, lock := 0 } =
        some ({ referred := none, lock := 0 }, ([] : List RefCountOp)) ∧
      ∀ r : ObjPtr, (UpdateRef (some r) none).2 = [RefCountOp.releaseOp r]) :=
  ⟨rfl, clear_non_owning_frame { referred := some 7, lock := 0 } rfl⟩

/-- C5: foreign routing — when ObjC interop is compiled in and the
referent is classified as an ObjC object wrapper,
`Konan_getWeakReferenceImpl` returns the foreign weak reference built
by `makeObjCWeakReferenceImpl` from the wrapped handle
`meta->associatedObject_`, leaves the metadata untouched, allocates no
native counter, and never reads or writes the counter cache entry. -/
theorem foreign_routing (objcInterop isObjCWrapper : Bool) (meta : MetaObjHeader)
    (fresh : ObjPtr) (h1 : objcInterop = true) (h2 : isObjCWrapper = true) :
    Konan_getWeakReferenceImpl objcInterop isObjCWrapper meta fresh =
      { result := WeakRefResult.objcWeakRef meta.associatedObject_
        meta := meta
        counterAllocated := false
        cacheAccessed := false } := by
  subst h1; subst h2
  simp [Konan_getWeakReferenceImpl]

theorem foreign_routing_witness :
    (true = true ∧ true = true) ∧
      Konan_getWeakReferenceImpl true true
          { counter_ := none, associatedObject_ := 42 } 9 =
        { result := WeakRefResult.objcWeakRef 42
          meta := { counter_ := none, associatedObject_ := 42 }
          counterAllocated := false
          cacheAccessed := false } :=
  ⟨⟨rfl, rfl⟩,
    foreign_routing true true { counter_ := none, associatedObject_ := 42 } 9 rfl rfl⟩

end Weak
